import Mathlib

/-!
Verification of a cycle-accurate SystemC model of a streaming, pipelined
Decimation-In-Frequency FFT datapath (per-stage butterfly `Stage`, pipeline
composer `FFT`, memory-streaming `DMA`, and the multi-core stagger scheduler
`InterleavedFFT`).

The SystemC modules are shallowly embedded as explicit state-transition
functions: each `SC_METHOD` sensitive to `clk.pos()` becomes a step function
from pre-edge state (and current inputs) to post-edge state, with SystemC
signal semantics (reads see pre-edge values; the last write to a signal in a
method body wins).  Combinational methods become pure functions of the
current state and inputs.  `double` sample components are idealized as real
numbers, so a `complex_t` value is a `ℂ`.
-/

namespace FFTSpec

/-! ## Stage (stage.h)

One radix-2 DIF butterfly level. `Stage::process` is clock-edge triggered;
its state is the counter `cnt`, the two buffers and the `out_data` register.
The butterfly arithmetic is parametrized by the sample type `α` and the
twiddle function `tw`; the concrete design instantiates `α := ℂ` and
`tw k := get_twiddle k N_stage`. -/

/-- State of one `Stage` instance: counter, the two sample buffers
(each of length `delay_len = N_stage / 2`), and the `out_data` register. -/
structure StageState (α : Type) where
  cnt : ℕ
  buf_in : List α
  buf_out : List α
  out_reg : α
deriving DecidableEq

/-- Twiddle factor exactly as `Stage::get_twiddle` computes it:
`angle = -2·π·k/n`, returning `complex_t(cos angle, sin angle)`. -/
noncomputable def get_twiddle (k n : ℕ) : ℂ :=
  ⟨Real.cos (-2 * Real.pi * k / n), Real.sin (-2 * Real.pi * k / n)⟩

/-- Effective counter for the edge: `sync` overrides the stored counter
with `init_offset` (local variable `c` in `Stage::process`). -/
def Stage.effCnt {α : Type} (off : ℕ) (sync : Bool) (s : StageState α) : ℕ :=
  if sync then off else s.cnt

/-- Effective buffer contents for the edge: `sync` clears the buffer
(`std::fill(..., complex_t(0,0))`) before the phase logic runs. -/
def Stage.effBuf {α : Type} [Zero α] (sync : Bool) (buf : List α) : List α :=
  if sync then buf.map (fun _ => 0) else buf

/-- One enabled, non-reset clock edge of `Stage::process`:
Phase 1 (`c < delay_len`) stores the input at `buf_in[c]` and emits
`buf_out[c]`; Phase 2 (`c ≥ delay_len`, `k = c - delay_len`) emits
`buf_in[k] + input` and stores `(buf_in[k] - input) * tw k` at `buf_out[k]`.
Finally `cnt` becomes `(c + 1) % N_stage`. -/
def Stage.step {α : Type} [Add α] [Sub α] [Mul α] [Zero α]
    (Ns off : ℕ) (tw : ℕ → α) (sync : Bool) (input : α) (s : StageState α) :
    StageState α :=
  let d := Ns / 2
  let c := Stage.effCnt off sync s
  let bi := Stage.effBuf sync s.buf_in
  let bo := Stage.effBuf sync s.buf_out
  if c < d then
    { cnt := (c + 1) % Ns
      buf_in := bi.set c input
      buf_out := bo
      out_reg := bo.getD c 0 }
  else
    { cnt := (c + 1) % Ns
      buf_in := bi
      buf_out := bo.set (c - d) ((bi.getD (c - d) 0 - input) * tw (c - d))
      out_reg := bi.getD (c - d) 0 + input }

/-- Reset branch of `Stage::process`: counter to `init_offset`, output and
both buffers cleared to zero. -/
def Stage.resetState {α : Type} [Zero α] (off : ℕ) (s : StageState α) : StageState α :=
  { cnt := off
    buf_in := s.buf_in.map (fun _ => 0)
    buf_out := s.buf_out.map (fun _ => 0)
    out_reg := 0 }

/-- Full `Stage::process` body for one clock edge: reset branch, else
(if enabled) the two-phase step, else state frozen. -/
def Stage.process {α : Type} [Add α] [Sub α] [Mul α] [Zero α]
    (Ns off : ℕ) (tw : ℕ → α) (rst enable sync : Bool) (input : α)
    (s : StageState α) : StageState α :=
  if rst then Stage.resetState off s
  else if enable then Stage.step Ns off tw sync input s
  else s

/-- State of a freshly constructed `Stage` (buffers `resize`d to
`delay_len = n / 2`, all signals at their default zero values). -/
def Stage.initState (α : Type) [Zero α] (n : ℕ) : StageState α :=
  { cnt := 0
    buf_in := List.replicate (n / 2) 0
    buf_out := List.replicate (n / 2) 0
    out_reg := 0 }

/-! ## FFT constructor (fft.h)

`FFT::FFT` computes `num_stages = log2(N)` and, for `i = 0 .. num_stages-1`,
builds a stage of size `current_N = N >> i` with counter offset
`(current_N - total_latency % current_N) % current_N`, accumulating
`total_latency += current_N / 2 + 1`.  We model the loop as a recursion
returning the list of `(size, offset)` pairs and the accumulated latency. -/

/-- Number of butterfly stages, `(int)log2(N)`. -/
def fftNumStages (N : ℕ) : ℕ := Nat.log2 N

/-- First `k` iterations of the constructor loop: the stage `(size, offset)`
configurations built so far and the running `total_latency`. -/
def fftStagesBuild (N : ℕ) : ℕ → List (ℕ × ℕ) × ℕ
  | 0 => ([], 0)
  | i + 1 =>
    let p := fftStagesBuild N i
    let curN := N >>> i
    (p.1 ++ [(curN, (curN - p.2 % curN) % curN)], p.2 + (curN / 2 + 1))

/-- Stage configurations (size, counter offset) of the constructed pipeline. -/
def fftConfigs (N : ℕ) : List (ℕ × ℕ) := (fftStagesBuild N (fftNumStages N)).1

/-- Stage sizes of the constructed pipeline: `N, N/2, N/4, …`. -/
def fftStageSizes (N : ℕ) : List ℕ := (List.range (fftNumStages N)).map (fun i => N >>> i)

/-- Total pipeline latency `latency_cycles` accumulated by the constructor. -/
def fftLatency (N : ℕ) : ℕ := (fftStagesBuild N (fftNumStages N)).2

/-! ## FFT control and sequential logic (fft.h) -/

/-- Register state of the `FFT` module: global cycle counter, input-position
counter, output-index counter, the validity shift register (length
`latency_cycles`), and the `flushing` flag. -/
structure FFTState where
  internal_cnt : ℕ
  samples_in_cnt : ℕ
  out_cnt_reg : ℕ
  valid_pipe : List Bool
  flushing : Bool
deriving DecidableEq

/-- Loop in `FFT::control_logic` testing whether any entry of `valid_pipe`
is set (a sample is in flight). -/
def fftAnyValid (s : FFTState) : Bool := s.valid_pipe.any id

/-- Combinational `internal_enable`: `in_valid OR any valid_pipe entry`. -/
def fftEnable (s : FFTState) (in_valid : Bool) : Bool := in_valid || fftAnyValid s

/-- Combinational `stage_sync`:
`samples_in_cnt == 0 && in_valid && !any_valid_in_pipe`. -/
def fftSync (s : FFTState) (in_valid : Bool) : Bool :=
  (s.samples_in_cnt == 0) && in_valid && !(fftAnyValid s)

/-- The `will_be_valid` test in `FFT::seq_logic`: second-oldest shift-register
entry, or `in_valid` itself when the register has length one. -/
def fftWillBeValid (s : FFTState) (in_valid : Bool) : Bool :=
  if 1 < s.valid_pipe.length then s.valid_pipe.getD (s.valid_pipe.length - 2) false
  else if s.valid_pipe.length = 1 then in_valid
  else false

/-- One non-reset clock edge of `FFT::seq_logic`.  When enabled: increment
`internal_cnt`, shift `valid_pipe` right inserting `in_valid` at the head,
advance `samples_in_cnt` modulo `N` on valid input, record `will_be_valid`
in `flushing`, advance `out_cnt_reg` modulo `N` when `will_be_valid`, and
force it to `N - 1` on `stage_sync` (the later write wins).  When not
enabled the state is frozen. -/
def fftSeq (N : ℕ) (in_valid : Bool) (s : FFTState) : FFTState :=
  if fftEnable s in_valid then
    { internal_cnt := s.internal_cnt + 1
      samples_in_cnt :=
        if in_valid then (if s.samples_in_cnt = N - 1 then 0 else s.samples_in_cnt + 1)
        else s.samples_in_cnt
      out_cnt_reg :=
        if fftSync s in_valid then N - 1
        else if fftWillBeValid s in_valid then (s.out_cnt_reg + 1) % N
        else s.out_cnt_reg
      valid_pipe :=
        if 0 < s.valid_pipe.length then in_valid :: s.valid_pipe.dropLast
        else s.valid_pipe
      flushing := fftWillBeValid s in_valid }
  else s

/-- State established by the reset branch of `FFT::seq_logic` (with
`flushing` at its default initial value). -/
def fftReset (N L : ℕ) : FFTState :=
  { internal_cnt := 0
    samples_in_cnt := 0
    out_cnt_reg := N - 1
    valid_pipe := List.replicate L false
    flushing := false }

/-- Combinational `out_valid` from `FFT::comb_logic`: the oldest entry
`valid_pipe[size - 1]` of the shift register (false when empty). -/
def fftOutValid (s : FFTState) : Bool :=
  if 0 < s.valid_pipe.length then s.valid_pipe.getD (s.valid_pipe.length - 1) false
  else false

/-- Trajectory of the FFT sequential state from reset, fed with input
validity `iv k` on clock edge `k`. -/
def fftRun (N : ℕ) (iv : ℕ → Bool) : ℕ → FFTState
  | 0 => fftReset N (fftLatency N)
  | k + 1 => fftSeq N (iv k) (fftRun N iv k)

/-! ## DMA (dma.h)

`DMA::seq_logic` with `ADDR_WIDTH = aw`; addresses live on a `sc_uint<aw>`
bus, so arithmetic is modulo `2 ^ aw`.  `num_samples` is a C++ `int`,
modelled as `ℤ`.  Within the method, `active.read()` after
`active.write(true)` still returns the pre-edge value, and the final
`read_wait.write(issuing_read); read_req.write(read_wait.read())` pair
overrides any earlier writes to those signals. -/

/-- Register state of the `DMA` module. -/
structure DMAState where
  busy : Bool
  active : Bool
  sample_counter : ℤ
  current_addr : ℕ
  mem_addr : ℕ
  read_req : Bool
  read_wait : Bool
deriving DecidableEq

/-- Reset branch of `DMA::seq_logic`. -/
def dmaReset : DMAState :=
  { busy := false, active := false, sample_counter := 0, current_addr := 0
    mem_addr := 0, read_req := false, read_wait := false }

/-- One non-reset clock edge of `DMA::seq_logic`: accept a `start` while
idle (latching `base_addr`, issuing the first read); while active, issue
one incrementing address per cycle until `sample_counter` reaches
`num_samples`, then wait for the request pipeline to drain before clearing
`active`/`busy`; the request pipeline always advances
`read_req ← read_wait ← issuing_read`. -/
def dmaStep (aw : ℕ) (start : Bool) (base : ℕ) (n : ℤ) (s : DMAState) : DMAState :=
  if start && !s.active then
    { busy := true, active := true, sample_counter := 1
      current_addr := (base + 1) % 2 ^ aw
      mem_addr := base % 2 ^ aw
      read_req := s.read_wait, read_wait := true }
  else if s.active then
    if s.sample_counter < n then
      { s with mem_addr := s.current_addr
               current_addr := (s.current_addr + 1) % 2 ^ aw
               sample_counter := s.sample_counter + 1
               read_req := s.read_wait, read_wait := true }
    else if !s.read_req && !s.read_wait then
      { s with busy := false, active := false
               read_req := s.read_wait, read_wait := false }
    else
      { s with read_req := s.read_wait, read_wait := false }
  else
    { s with read_req := s.read_wait, read_wait := false }

/-- Full `DMA::seq_logic` body for one clock edge. -/
def dmaSeq (aw : ℕ) (rst start : Bool) (base : ℕ) (n : ℤ) (s : DMAState) : DMAState :=
  if rst then dmaReset else dmaStep aw start base n s

/-- Unpacking of a 64-bit memory word in `DMA::comb_logic`:
`raw.range(63,32)` as an unsigned integer becomes the real component,
`raw.range(31,0)` the imaginary component. -/
noncomputable def dmaUnpack (raw : ℕ) : ℂ :=
  ⟨((raw / 2 ^ 32) % 2 ^ 32 : ℕ), ((raw % 2 ^ 32 : ℕ))⟩

/-- Combinational `DMA::comb_logic` for the 64-bit data width: the pair
`(fft_valid, fft_data)` as a function of `read_req` and `mem_data`. -/
noncomputable def dmaComb (read_req : Bool) (mem_data : ℕ) : Bool × ℂ :=
  if read_req then (true, dmaUnpack mem_data) else (false, 0)

/-- DMA trajectory: `start` pulsed on clock edge 0 only, `base_addr` and
`num_samples` held constant, no reset. -/
def dmaRun (aw : ℕ) (base : ℕ) (n : ℤ) (s0 : DMAState) : ℕ → DMAState
  | 0 => s0
  | t + 1 => dmaSeq aw false (t == 0) base n (dmaRun aw base n s0 t)

/-! ## InterleavedFFT stagger scheduler (interleaved_fft.h)

`InterleavedFFT::control_logic` is clock-edge triggered; its registers are
`active_stagger`, `stagger_counter` (a C++ `int`, modelled as `ℤ`) and the
per-core `dma_starts` signals.  On an accepted `start` the local variables
`is_active`/`cnt` are overridden to `true`/`0` before the staggering block
runs, and the exit test `cnt > num_cores * hop + 2` can override the
`active_stagger.write(true)` (the later write wins). -/

/-- Register state of the stagger scheduler. -/
structure IFFTState where
  active_stagger : Bool
  stagger_counter : ℤ
  dma_starts : List Bool
deriving DecidableEq

/-- One non-reset clock edge of `InterleavedFFT::control_logic`. -/
def ifftStep (c : ℕ) (hop : ℤ) (start : Bool) (s : IFFTState) : IFFTState :=
  if start && !s.active_stagger then
    { active_stagger := if (0 : ℤ) > c * hop + 2 then false else true
      stagger_counter := 1
      dma_starts := (List.range c).map (fun i : ℕ => ((0 : ℤ) == (i : ℤ) * hop)) }
  else if s.active_stagger then
    { active_stagger := if s.stagger_counter > c * hop + 2 then false else true
      stagger_counter := s.stagger_counter + 1
      dma_starts := (List.range c).map (fun i : ℕ => (s.stagger_counter == (i : ℤ) * hop)) }
  else
    { s with dma_starts := List.replicate c false }

/-- Scheduler trajectory: a single global `start` pulse on clock edge 0. -/
def ifftRun (c : ℕ) (hop : ℤ) (s0 : IFFTState) : ℕ → IFFTState
  | 0 => s0
  | t + 1 => ifftStep c hop (t == 0) (ifftRun c hop s0 t)

/-! ## Claim C7: the `stage_sync` condition -/

/-- C7: on every cycle, `stage_sync` is asserted if and only if
`samples_in_cnt == 0`, `in_valid` is true, and no entry of the validity
shift register is true (no sample currently in flight). -/
theorem fft_stage_sync_iff (s : FFTState) (v : Bool) :
    fftSync s v = true ↔
      s.samples_in_cnt = 0 ∧ v = true ∧ ∀ b ∈ s.valid_pipe, b = false := by
  simp only [fftSync, fftAnyValid, Bool.and_eq_true, beq_iff_eq, Bool.not_eq_true',
    List.any_eq_false, id]
  constructor
  · rintro ⟨⟨h0, hv⟩, hp⟩
    exact ⟨h0, hv, fun b hb => by simpa using hp b hb⟩
  · rintro ⟨h0, hv, hp⟩
    exact ⟨⟨h0, hv⟩, fun b hb => by simpa using hp b hb⟩

/-! ## Claim C9: `start` while busy / staggering is silently ignored -/

/-- C9: a `start` pulse arriving while the DMA is `active`, or while the
stagger scheduler is already Staggering, changes nothing: the post-edge
state is identical to the one obtained with `start` low, and there is no
error path. -/
theorem start_retrigger_ignored (aw : ℕ) (base : ℕ) (n : ℤ) (s : DMAState)
    (hs : s.active = true) (c : ℕ) (hop : ℤ) (t : IFFTState)
    (ht : t.active_stagger = true) :
    dmaSeq aw false true base n s = dmaSeq aw false false base n s ∧
    ifftStep c hop true t = ifftStep c hop false t := by
  constructor
  · simp [dmaSeq, dmaStep, hs]
  · simp [ifftStep, ht]

/-- Witness for `start_retrigger_ignored` at a concrete mid-transfer DMA
state and a concrete mid-stagger scheduler state. -/
theorem start_retrigger_ignored_witness :
    dmaSeq 12 false true 5 8 ⟨true, true, 3, 9, 8, true, true⟩ =
      dmaSeq 12 false false 5 8 ⟨true, true, 3, 9, 8, true, true⟩ ∧
    ifftStep 2 3 true ⟨true, 4, [false, false]⟩ =
      ifftStep 2 3 false ⟨true, 4, [false, false]⟩ :=
  start_retrigger_ignored 12 5 8 ⟨true, true, 3, 9, 8, true, true⟩ rfl
    2 3 ⟨true, 4, [false, false]⟩ rfl

/-! ## Claim C5: the DMA unpack contract -/

/-- C5: with a 64-bit data width, `fft_valid` is asserted iff `read_req` is
set; when set, the emitted sample's real component is the memory word's
upper 32 bits read as an unsigned integer and its imaginary component the
lower 32 bits likewise; when clear, the zero sample is emitted. -/
theorem dma_comb_unpack (req : Bool) (raw : ℕ) :
    ((dmaComb req raw).1 = true ↔ req = true) ∧
    (req = true →
      (dmaComb req raw).2.re = ((raw / 2 ^ 32) % 2 ^ 32 : ℕ) ∧
      (dmaComb req raw).2.im = ((raw % 2 ^ 32 : ℕ) : ℝ)) ∧
    (req = false → (dmaComb req raw).2 = 0) := by
  cases req <;> simp [dmaComb, dmaUnpack]

/-- Witness for `dma_comb_unpack`: the word with upper half 7 and lower
half 9 unpacks to the sample `(7, 9)`, with the valid pulse asserted. -/
theorem dma_comb_unpack_witness :
    (dmaComb true (7 * 2 ^ 32 + 9)).1 = true ∧
    (dmaComb true (7 * 2 ^ 32 + 9)).2.re =
      (((7 * 2 ^ 32 + 9) / 2 ^ 32) % 2 ^ 32 : ℕ) :=
  ⟨(dma_comb_unpack true (7 * 2 ^ 32 + 9)).1.mpr rfl,
   ((dma_comb_unpack true (7 * 2 ^ 32 + 9)).2.1 rfl).1⟩

/-! ## Claim C8: no construction-time validation (corrected)

The constructors contain no size check: `FFT::FFT` computes
`num_stages = (int)log2(N)` and builds that many stages whatever `N` is,
and `Stage::Stage` accepts any size, so a non-power-of-two or degenerate
size is NOT rejected — construction silently proceeds. -/

/-- C8 counterexample: constructing with the non-power-of-two size `N = 3`
is not rejected: it yields a well-defined configuration with one stage of
size 3 (and `2 ^ num_stages ≠ N`), total latency 2, and a `Stage` whose
buffers were happily resized to `3 / 2 = 1`. -/
theorem fft_ctor_no_reject_cex :
    fftNumStages 3 = 1 ∧ fftConfigs 3 = [(3, 0)] ∧ fftLatency 3 = 2 ∧
    (2 : ℕ) ^ fftNumStages 3 ≠ 3 ∧ (Stage.initState ℤ 3).buf_in = [0] := by
  have h : Nat.log2 3 = 1 := by simp [Nat.log2]
  refine ⟨h, ?_, ?_, ?_, by decide⟩
  · show (fftStagesBuild 3 (Nat.log2 3)).1 = [(3, 0)]
    rw [h]; decide
  · show (fftStagesBuild 3 (Nat.log2 3)).2 = 2
    rw [h]; decide
  · show (2 : ℕ) ^ Nat.log2 3 ≠ 3
    rw [h]; decide

/-- Auxiliary: the constructor loop builds exactly `k` stage configurations
after `k` iterations. -/
theorem fftStagesBuild_length (N k : ℕ) : (fftStagesBuild N k).1.length = k := by
  induction k with
  | zero => rfl
  | succ k ih => simp [fftStagesBuild, ih]

/-- C8 amended: construction does not validate the size.  For every `N ≥ 2`
that is not a power of two, `FFT` construction still succeeds, producing a
nonempty list of `log2 N` stage configurations whose count matches no
power-of-two factorization of `N` (`2 ^ num_stages ≠ N`). -/
theorem fft_ctor_total (N : ℕ) (h2 : 2 ≤ N) (hnp : ∀ m, N ≠ 2 ^ m) :
    (fftConfigs N).length = fftNumStages N ∧ fftConfigs N ≠ [] ∧
    2 ^ (fftConfigs N).length ≠ N := by
  have hlen : (fftConfigs N).length = fftNumStages N := fftStagesBuild_length _ _
  have hpos : 0 < fftNumStages N := by
    rw [fftNumStages, Nat.log2_eq_log_two]
    exact Nat.log_pos (by norm_num) h2
  refine ⟨hlen, ?_, ?_⟩
  · intro hnil
    rw [hnil] at hlen
    simp at hlen
    omega
  · rw [hlen]
    exact fun h => hnp (fftNumStages N) h.symm

/-- Witness for `fft_ctor_total` at the concrete non-power-of-two size 3. -/
theorem fft_ctor_total_witness :
    (fftConfigs 3).length = fftNumStages 3 ∧ fftConfigs 3 ≠ [] ∧
    2 ^ (fftConfigs 3).length ≠ 3 :=
  fft_ctor_total 3 (by norm_num) (by
    intro m h
    rcases m with _ | _ | m
    · simp at h
    · simp at h
    · have h4 : 4 ≤ 2 ^ (m + 2) := by
        calc 4 = 2 ^ 2 := rfl
        _ ≤ 2 ^ (m + 2) := Nat.pow_le_pow_right (by norm_num) (by omega)
      omega)

/-! ## Claim C6: the effect of `sync` (corrected)

`sync` does reset the working counter to `init_offset` and clear both
buffers — but it does so at the start of the edge, and the same edge then
performs its normal phase processing.  The post-edge state therefore has
`cnt = (init_offset + 1) % N_stage` (not `init_offset`) and the input
buffer already holds this edge's sample (so it is not all-zero when the
input is nonzero). -/

/-- C6 counterexample: an enabled non-reset edge with `sync` asserted, size
4, `init_offset = 0` and input sample 1: afterwards `cnt = 1 ≠ 0` and
`buf_in = [1, 0]`, not the all-zero buffer. -/
theorem stage_sync_literal_cex :
    (Stage.process 4 0 (fun k => get_twiddle k 4) false true true (1 : ℂ)
        ⟨3, [5, 7], [11, 13], 9⟩).cnt ≠ 0 ∧
    (Stage.process 4 0 (fun k => get_twiddle k 4) false true true (1 : ℂ)
        ⟨3, [5, 7], [11, 13], 9⟩).buf_in ≠ List.replicate 2 0 := by
  constructor
  · simp [Stage.process, Stage.step, Stage.effCnt, Stage.effBuf]
  · simp [Stage.process, Stage.step, Stage.effCnt, Stage.effBuf, List.set]

/-- C6 amended: `sync` on an enabled non-reset edge discards the entire
pre-edge state: the edge behaves exactly as if `cnt` were `init_offset`
and both buffers all-zero, i.e. the post-edge state equals a plain
(non-sync) step from that cleared state — in particular it is independent
of every pre-edge counter and buffer value, so nothing from a previous or
aborted block survives. -/
theorem stage_sync_clears_state {α : Type} [Add α] [Sub α] [Mul α] [Zero α]
    (Ns off : ℕ) (tw : ℕ → α) (input : α) (s : StageState α) :
    Stage.process Ns off tw false true true input s =
      Stage.step Ns off tw false input
        ⟨off, List.replicate s.buf_in.length 0, List.replicate s.buf_out.length 0, 0⟩ := by
  simp [Stage.process, Stage.step, Stage.effCnt, Stage.effBuf, List.map_const']

/-! ## Claim C1: the latency law -/

/-- Auxiliary: the running `total_latency` of the constructor loop equals
the partial sum of the per-stage contributions `(N >> i) / 2 + 1`. -/
theorem fftStagesBuild_latency (N k : ℕ) :
    (fftStagesBuild N k).2 = ∑ i in Finset.range k, (N >>> i / 2 + 1) := by
  induction k with
  | zero => rfl
  | succ k ih => simp [fftStagesBuild, ih, Finset.sum_range_succ]

/-- Auxiliary: `latency_cycles` in closed form. -/
theorem fftLatency_eq_sum (N : ℕ) :
    fftLatency N = ∑ i in Finset.range (Nat.log2 N), (N / 2 ^ (i + 1) + 1) := by
  rw [fftLatency, fftNumStages, fftStagesBuild_latency]
  refine Finset.sum_congr rfl fun i _ => ?_
  rw [Nat.shiftRight_eq_div_pow, Nat.div_div_eq_div_mul, ← pow_succ]

/-- Auxiliary: the number of stages of a power-of-two pipeline. -/
theorem fftNumStages_pow (m : ℕ) : fftNumStages (2 ^ m) = m := by
  rw [fftNumStages, Nat.log2_eq_log_two]
  exact Nat.log_pow (by norm_num) m

/-- Auxiliary: a pipeline with at least one stage has positive latency. -/
theorem fftLatency_pos (N : ℕ) (h : 0 < Nat.log2 N) : 0 < fftLatency N := by
  rw [fftLatency_eq_sum]
  exact Finset.sum_pos (fun i _ => Nat.succ_pos _)
    (Finset.nonempty_range_iff.mpr (by omega))

/-- Auxiliary: evolution of the validity shift register.  Fed with input
validity `iv` (valid on the first edge), after `k ≤ latency_cycles` edges
the register holds the last `k` validity bits (newest at the head)
followed by the residual `false`s from reset.  Every one of these first
`latency_cycles` edges is enabled, because either the current input is
valid or the first valid bit is still in flight. -/
theorem fft_pipe_evolution (N : ℕ) (iv : ℕ → Bool) (hiv : iv 0 = true)
    (hL : 0 < fftLatency N) :
    ∀ k, k ≤ fftLatency N →
      (fftRun N iv k).valid_pipe =
        (List.range k).map (fun j => iv (k - 1 - j)) ++
          List.replicate (fftLatency N - k) false := by
  intro k
  induction k with
  | zero => intro _; simp [fftRun, fftReset]
  | succ k ih =>
    intro hk1
    have hk : k ≤ fftLatency N := Nat.le_of_succ_le hk1
    have hpipe := ih hk
    have henable : fftEnable (fftRun N iv k) (iv k) = true := by
      rcases Nat.eq_zero_or_pos k with hk0 | hkpos
      · subst hk0; simp [fftEnable, hiv]
      · have hmem : (true : Bool) ∈ (fftRun N iv k).valid_pipe := by
          rw [hpipe]
          refine List.mem_append_left _ (List.mem_map.mpr ?_)
          exact ⟨k - 1, List.mem_range.mpr (by omega), by simp [Nat.sub_self, hiv]⟩
        have hany : fftAnyValid (fftRun N iv k) = true :=
          List.any_eq_true.mpr ⟨true, hmem, rfl⟩
        simp [fftEnable, hany]
    have hlen : (fftRun N iv k).valid_pipe.length = fftLatency N := by
      rw [hpipe]; simp; omega
    show (fftSeq N (iv k) (fftRun N iv k)).valid_pipe = _
    rw [fftSeq, if_pos henable]
    show (if 0 < (fftRun N iv k).valid_pipe.length then
            iv k :: (fftRun N iv k).valid_pipe.dropLast
          else (fftRun N iv k).valid_pipe) = _
    rw [if_pos (by omega : 0 < (fftRun N iv k).valid_pipe.length), hpipe]
    have hsplit : fftLatency N - k = (fftLatency N - (k + 1)) + 1 := by omega
    rw [hsplit, List.replicate_succ', ← List.append_assoc, List.dropLast_concat]
    have hfun : (fun j => iv (k + 1 - 1 - j)) ∘ Nat.succ = fun j => iv (k - 1 - j) := by
      funext j; simp only [Function.comp]; congr 1; omega
    rw [List.range_succ_eq_map, List.map_cons, List.map_map, hfun]
    simp

/-- C1: for `N = 2 ^ m` (`m ≥ 1`), the pipeline latency equals
`Σ_{i=0}^{log2(N)-1} (N / 2^{i+1} + 1)`, and — for any input-validity
pattern whose first edge carries a valid sample — `out_valid` first
becomes true exactly `latency_cycles` enabled edges after that first
valid input: it is false after every earlier number of edges and true
after exactly `latency_cycles` edges. -/
theorem fft_latency_law (N m : ℕ) (hm : 1 ≤ m) (hN : N = 2 ^ m)
    (iv : ℕ → Bool) (hiv : iv 0 = true) :
    fftLatency N = ∑ i in Finset.range (Nat.log2 N), (N / 2 ^ (i + 1) + 1) ∧
    fftOutValid (fftRun N iv (fftLatency N)) = true ∧
    ∀ k < fftLatency N, fftOutValid (fftRun N iv k) = false := by
  have hlog : Nat.log2 N = m := by rw [hN]; exact fftNumStages_pow m
  have hL : 0 < fftLatency N := fftLatency_pos N (by omega)
  refine ⟨fftLatency_eq_sum N, ?_, ?_⟩
  · have hpipe := fft_pipe_evolution N iv hiv hL (fftLatency N) le_rfl
    have hlen : (fftRun N iv (fftLatency N)).valid_pipe.length = fftLatency N := by
      rw [hpipe]; simp
    rw [fftOutValid, if_pos (by omega), hlen, hpipe]
    rw [List.getD_append _ _ _ _ (by simp; omega)]
    rw [List.getD_eq_getElem?_getD, List.getElem?_map, List.getElem?_range (by omega)]
    simp [Nat.sub_self, hiv]
  · intro k hk
    have hpipe := fft_pipe_evolution N iv hiv hL k (by omega)
    have hlen : (fftRun N iv k).valid_pipe.length = fftLatency N := by
      rw [hpipe]; simp; omega
    rw [fftOutValid, if_pos (by omega), hlen, hpipe]
    rw [List.getD_append_right _ _ _ _ (by simp; omega)]
    have hidx : fftLatency N - 1 - ((List.range k).map
        (fun j => iv (k - 1 - j))).length < fftLatency N - k := by
      simp; omega
    rw [List.getD_eq_getElem?_getD, List.getElem?_replicate]
    simp only [if_pos hidx, Option.getD_some]

/-- Witness for `fft_latency_law` at `N = 4` with continuously valid input:
the latency is `(2+1) + (1+1) = 5` cycles, `out_valid` is still false after
4 edges and becomes true after exactly 5. -/
theorem fft_latency_law_witness :
    fftLatency 4 = 5 ∧
    fftOutValid (fftRun 4 (fun _ => true) 5) = true ∧
    fftOutValid (fftRun 4 (fun _ => true) 4) = false := by
  have hlog : Nat.log2 4 = 2 := by simp [Nat.log2]
  have h5 : fftLatency 4 = 5 := by
    show (fftStagesBuild 4 (Nat.log2 4)).2 = 5
    rw [hlog]; decide
  have h := fft_latency_law 4 2 (by norm_num) (by norm_num) (fun _ => true) rfl
  exact ⟨h5, by rw [← h5]; exact h.2.1, h.2.2 4 (by omega)⟩

/-! ## Claim C3: stagger timing -/

/-- Auxiliary: an accepted `start` (scheduler idle) overrides the local
`is_active`/`cnt` with `true`/`0` before the staggering block runs. -/
theorem ifftStep_accept (c : ℕ) (hop : ℤ) (s : IFFTState)
    (h : s.active_stagger = false) :
    ifftStep c hop true s =
      { active_stagger := if (0 : ℤ) > c * hop + 2 then false else true
        stagger_counter := 1
        dma_starts := (List.range c).map (fun i : ℕ => ((0 : ℤ) == (i : ℤ) * hop)) } := by
  unfold ifftStep
  rw [if_pos (by rw [h]; rfl)]

/-- Auxiliary: a step while Staggering (with any `start` value, which is
ignored) drives the per-core start signals from the current counter. -/
theorem ifftStep_stagger (c : ℕ) (hop : ℤ) (start : Bool) (s : IFFTState)
    (h : s.active_stagger = true) :
    ifftStep c hop start s =
      { active_stagger := if s.stagger_counter > c * hop + 2 then false else true
        stagger_counter := s.stagger_counter + 1
        dma_starts := (List.range c).map (fun i : ℕ => (s.stagger_counter == (i : ℤ) * hop)) } := by
  unfold ifftStep
  rw [if_neg (by rw [h]; simp), if_pos h]

/-- Auxiliary: an idle step without `start` only holds the start signals low. -/
theorem ifftStep_idle (c : ℕ) (hop : ℤ) (s : IFFTState)
    (h : s.active_stagger = false) :
    ifftStep c hop false s = { s with dma_starts := List.replicate c false } := by
  unfold ifftStep
  rw [if_neg (by simp), if_neg (by rw [h]; simp)]

/-- Auxiliary: closed form of the scheduler trajectory after an accepted
global `start` (pulsed on edge 0 with the scheduler idle).  After `t + 1`
edges: the scheduler is still Staggering iff `t + 1 ≤ c·hop + 3`, the
counter has advanced to `min (t+1) (c·hop + 4)`, and core `i`'s start
signal is high iff `t` equals `i·hop` (the counter value used on edge
`t`). -/
theorem ifft_run_closed (c : ℕ) (hop : ℤ) (hc : 1 ≤ c) (hh : 0 ≤ hop)
    (s0 : IFFTState) (h0 : s0.active_stagger = false) :
    ∀ t : ℕ,
      (ifftRun c hop s0 (t + 1)).active_stagger
          = decide ((t : ℤ) + 1 ≤ (c : ℤ) * hop + 3) ∧
      (ifftRun c hop s0 (t + 1)).stagger_counter
          = min ((t : ℤ) + 1) ((c : ℤ) * hop + 4) ∧
      (ifftRun c hop s0 (t + 1)).dma_starts
          = (List.range c).map (fun i : ℕ => ((t : ℤ) == (i : ℤ) * hop)) := by
  have hch : (0 : ℤ) ≤ (c : ℤ) * hop :=
    mul_nonneg (by exact_mod_cast Nat.zero_le c) hh
  intro t
  induction t with
  | zero =>
    have hstep : ifftRun c hop s0 (0 + 1) = ifftStep c hop true s0 := rfl
    rw [hstep, ifftStep_accept c hop s0 h0,
      if_neg (show ¬((0 : ℤ) > (c : ℤ) * hop + 2) by omega)]
    refine ⟨?_, ?_, ?_⟩
    · symm
      rw [decide_eq_true_eq]
      push_cast
      omega
    · show (1 : ℤ) = min (((0 : ℕ) : ℤ) + 1) ((c : ℤ) * hop + 4)
      rw [min_eq_left (by push_cast; omega)]
      norm_num
    · show _ = List.map (fun i : ℕ => (((0 : ℕ) : ℤ) == (i : ℤ) * hop)) (List.range c)
      refine (List.map_congr_left fun i hi => ?_).symm
      push_cast
      try rfl
  | succ t ih =>
    obtain ⟨iha, ihc, ihs⟩ := ih
    have hstep : ifftRun c hop s0 (t + 1 + 1)
        = ifftStep c hop false (ifftRun c hop s0 (t + 1)) := rfl
    by_cases hA : (t : ℤ) + 1 ≤ (c : ℤ) * hop + 3
    · have hact : (ifftRun c hop s0 (t + 1)).active_stagger = true := by
        rw [iha]; exact decide_eq_true hA
      have hcnt : (ifftRun c hop s0 (t + 1)).stagger_counter = (t : ℤ) + 1 := by
        rw [ihc, min_eq_left (by omega)]
      rw [hstep, ifftStep_stagger c hop false _ hact, hcnt]
      refine ⟨?_, ?_, ?_⟩
      · by_cases hB : (t : ℤ) + 1 > (c : ℤ) * hop + 2
        · rw [if_pos hB]
          symm
          rw [decide_eq_false_iff_not]
          push_cast
          omega
        · rw [if_neg hB]
          symm
          rw [decide_eq_true_eq]
          push_cast
          omega
      · rw [min_eq_left (by push_cast; omega)]
        push_cast
        ring
      · refine List.map_congr_left fun i hi => ?_
        push_cast
        try rfl
    · have hact : (ifftRun c hop s0 (t + 1)).active_stagger = false := by
        rw [iha]; exact decide_eq_false hA
      rw [hstep, ifftStep_idle c hop _ hact]
      refine ⟨?_, ?_, ?_⟩
      · show (ifftRun c hop s0 (t + 1)).active_stagger = _
        rw [hact]
        symm
        rw [decide_eq_false_iff_not]
        push_cast
        omega
      · show (ifftRun c hop s0 (t + 1)).stagger_counter = _
        rw [ihc, min_eq_right (by omega), min_eq_right (by push_cast; omega)]
      · show List.replicate c false = _
        symm
        rw [List.eq_replicate_iff]
        refine ⟨by simp, fun b hb => ?_⟩
        obtain ⟨i, hi, rfl⟩ := List.mem_map.mp hb
        have hi2 : (i : ℤ) ≤ (c : ℤ) - 1 := by
          have := List.mem_range.mp hi
          push_cast
          omega
        have hmul : (i : ℤ) * hop ≤ ((c : ℤ) - 1) * hop :=
          mul_le_mul_of_nonneg_right hi2 hh
        have hexp : ((c : ℤ) - 1) * hop = (c : ℤ) * hop - hop := by ring
        rw [hexp] at hmul
        rw [beq_eq_false_iff_ne]
        intro heq
        push_cast at heq
        omega

/-- C3: for every `NUM_CORES = c ≥ 1` and `HOP_SIZE = hop ≥ 0`, after a
global `start` pulse accepted while the scheduler is idle, core `i`'s
internal start signal `dma_starts[i]` is high after edge `t` exactly when
`t = i·hop` — the single cycle on which the stagger counter passed
`i·hop`.  Hence core `i` starts exactly `i·hop` cycles after core 0 and
receives exactly one start pulse per accepted global start. -/
theorem ifft_stagger_timing (c : ℕ) (hop : ℤ) (hc : 1 ≤ c) (hh : 0 ≤ hop)
    (s0 : IFFTState) (h0 : s0.active_stagger = false)
    (i : ℕ) (hi : i < c) (t : ℕ) :
    (ifftRun c hop s0 (t + 1)).dma_starts.getD i false
      = ((t : ℤ) == (i : ℤ) * hop) := by
  rw [(ifft_run_closed c hop hc hh s0 h0 t).2.2]
  rw [List.getD_eq_getElem?_getD, List.getElem?_map, List.getElem?_range hi]
  rfl

/-- Witness for `ifft_stagger_timing`: two cores, hop 3; core 1's start
pulse is high on the cycle after edge `t = 3 = 1·3`. -/
theorem ifft_stagger_timing_witness :
    (ifftRun 2 3 ⟨false, 0, []⟩ 4).dma_starts.getD 1 false = true :=
  (ifft_stagger_timing 2 3 (by norm_num) (by norm_num) ⟨false, 0, []⟩ rfl 1
    (by norm_num) 3).trans (by decide)

/-! ## Claims C4 and C10: DMA transfer timing -/

/-- Auxiliary: accepting a `start` while idle latches the base address,
issues the first read and raises `busy`. -/
theorem dmaStep_accept (aw base : ℕ) (n : ℤ) (s : DMAState)
    (h : s.active = false) :
    dmaStep aw true base n s =
      { busy := true, active := true, sample_counter := 1
        current_addr := (base + 1) % 2 ^ aw, mem_addr := base % 2 ^ aw
        read_req := s.read_wait, read_wait := true } := by
  unfold dmaStep
  rw [if_pos (by rw [h]; rfl)]

/-- Auxiliary: an active cycle with samples still to issue drives the next
address and advances the request pipeline (`start` is ignored). -/
theorem dmaStep_issue (aw base : ℕ) (n : ℤ) (start : Bool) (s : DMAState)
    (h : s.active = true) (hlt : s.sample_counter < n) :
    dmaStep aw start base n s =
      { s with mem_addr := s.current_addr
               current_addr := (s.current_addr + 1) % 2 ^ aw
               sample_counter := s.sample_counter + 1
               read_req := s.read_wait, read_wait := true } := by
  unfold dmaStep
  rw [if_neg (by rw [h]; simp), if_pos h, if_pos hlt]

/-- Auxiliary: an active cycle with the issue loop done but a request still
outstanding only drains the request pipeline, keeping `busy` high. -/
theorem dmaStep_drain (aw base : ℕ) (n : ℤ) (start : Bool) (s : DMAState)
    (h : s.active = true) (hge : ¬s.sample_counter < n)
    (hout : s.read_req = true ∨ s.read_wait = true) :
    dmaStep aw start base n s =
      { s with read_req := s.read_wait, read_wait := false } := by
  unfold dmaStep
  rw [if_neg (by rw [h]; simp), if_pos h, if_neg hge,
    if_neg (by rcases hout with h1 | h1 <;> simp [h1])]

/-- Auxiliary: an active cycle with the issue loop done and no request
outstanding clears `active` and `busy`. -/
theorem dmaStep_finish (aw base : ℕ) (n : ℤ) (start : Bool) (s : DMAState)
    (h : s.active = true) (hge : ¬s.sample_counter < n)
    (hr : s.read_req = false) (hw : s.read_wait = false) :
    dmaStep aw start base n s =
      { s with busy := false, active := false
               read_req := s.read_wait, read_wait := false } := by
  unfold dmaStep
  rw [if_neg (by rw [h]; simp), if_pos h, if_neg hge,
    if_pos (by rw [hr, hw]; rfl)]

/-- Auxiliary: an idle cycle without `start` only drains the pipeline. -/
theorem dmaStep_idle (aw base : ℕ) (n : ℤ) (s : DMAState)
    (h : s.active = false) :
    dmaStep aw false base n s =
      { s with read_req := s.read_wait, read_wait := false } := by
  unfold dmaStep
  rw [if_neg (by simp), if_neg (by rw [h]; simp)]

/-- Auxiliary: closed form of the DMA trajectory after a `start` accepted on
edge 0 from a quiescent idle state.  `m` is the effective number of issued
reads: `m = num_samples` when `num_samples ≥ 1` and `m = 1` otherwise (the
accept edge issues one read unconditionally).  After `t + 1` edges:
`busy`/`active` hold for `t + 1 ≤ m + 2`, addresses advance with the issue
loop, `read_wait` holds while issuing (`t + 1 ≤ m`) and `read_req` — the
data-capture / `fft_valid` cycle — for `2 ≤ t + 1 ≤ m + 1`. -/
theorem dma_run_closed (aw base : ℕ) (n : ℤ) (s0 : DMAState)
    (h0a : s0.active = false) (h0r : s0.read_req = false)
    (h0w : s0.read_wait = false) (m : ℕ) (hm1 : 1 ≤ m)
    (hmn : ¬((m : ℤ) < n)) (hm2 : ∀ t : ℕ, t + 1 < m → ((t : ℤ) + 1 < n)) :
    ∀ t : ℕ,
      (dmaRun aw base n s0 (t + 1)).busy = decide (t + 1 ≤ m + 2) ∧
      (dmaRun aw base n s0 (t + 1)).active = decide (t + 1 ≤ m + 2) ∧
      (dmaRun aw base n s0 (t + 1)).sample_counter = ((min (t + 1) m : ℕ) : ℤ) ∧
      (dmaRun aw base n s0 (t + 1)).current_addr = (base + min (t + 1) m) % 2 ^ aw ∧
      (dmaRun aw base n s0 (t + 1)).mem_addr
          = (base + (min (t + 1) m - 1)) % 2 ^ aw ∧
      (dmaRun aw base n s0 (t + 1)).read_wait = decide (t + 1 ≤ m) ∧
      (dmaRun aw base n s0 (t + 1)).read_req
          = decide (2 ≤ t + 1 ∧ t + 1 ≤ m + 1) := by
  intro t
  induction t with
  | zero =>
    have hstep : dmaRun aw base n s0 (0 + 1) = dmaStep aw true base n s0 := rfl
    rw [hstep, dmaStep_accept aw base n s0 h0a]
    refine ⟨?_, ?_, ?_, ?_, ?_, ?_, ?_⟩
    · exact (decide_eq_true (by omega)).symm
    · exact (decide_eq_true (by omega)).symm
    · rw [min_eq_left hm1]
      norm_num
    · rw [min_eq_left hm1]
    · rw [min_eq_left hm1]
      norm_num
    · exact (decide_eq_true (by omega)).symm
    · rw [h0w]
      exact (decide_eq_false (by omega)).symm
  | succ t ih =>
    obtain ⟨ihb, iha, ihc, ihu, ihm, ihw, ihr⟩ := ih
    have hstep : dmaRun aw base n s0 (t + 1 + 1)
        = dmaStep aw false base n (dmaRun aw base n s0 (t + 1)) := rfl
    by_cases hi : t + 1 < m
    · -- issue loop still running
      have hact : (dmaRun aw base n s0 (t + 1)).active = true := by
        rw [iha]; exact decide_eq_true (by omega)
      have hlt : (dmaRun aw base n s0 (t + 1)).sample_counter < n := by
        rw [ihc, min_eq_left (by omega)]
        have := hm2 t hi
        push_cast
        omega
      rw [hstep, dmaStep_issue aw base n false _ hact hlt]
      refine ⟨?_, ?_, ?_, ?_, ?_, ?_, ?_⟩
      · rw [ihb]; exact decide_eq_decide.mpr (by omega)
      · rw [iha]; exact decide_eq_decide.mpr (by omega)
      · rw [ihc, min_eq_left (by omega), min_eq_left (by omega)]
        push_cast
        try ring
      · rw [ihu, min_eq_left (by omega), min_eq_left (by omega)]
        show ((base + (t + 1)) % 2 ^ aw + 1) % 2 ^ aw = (base + (t + 1 + 1)) % 2 ^ aw
        rw [Nat.mod_add_mod]
        congr 1 <;> omega
      · rw [ihu, min_eq_left (by omega), min_eq_left (by omega)]
        show (base + (t + 1)) % 2 ^ aw = (base + (t + 1 + 1 - 1)) % 2 ^ aw
        congr 1 <;> omega
      · exact (decide_eq_true (by omega)).symm
      · rw [ihw]; exact decide_eq_decide.mpr (by omega)
    · have hact2 : (dmaRun aw base n s0 (t + 1)).active
          = decide (t + 1 ≤ m + 2) := iha
      have hnlt : ¬(dmaRun aw base n s0 (t + 1)).sample_counter < n := by
        rw [ihc, min_eq_right (by omega)]
        exact_mod_cast hmn
      by_cases hii : t + 1 ≤ m + 1
      · -- drain: a request is still in flight
        have hact : (dmaRun aw base n s0 (t + 1)).active = true := by
          rw [iha]; exact decide_eq_true (by omega)
        have hout : (dmaRun aw base n s0 (t + 1)).read_req = true ∨
            (dmaRun aw base n s0 (t + 1)).read_wait = true := by
          by_cases hw : t + 1 ≤ m
          · exact Or.inr (by rw [ihw]; exact decide_eq_true (by omega))
          · exact Or.inl (by rw [ihr]; exact decide_eq_true (by omega))
        rw [hstep, dmaStep_drain aw base n false _ hact hnlt hout]
        refine ⟨?_, ?_, ?_, ?_, ?_, ?_, ?_⟩
        · rw [ihb]; exact decide_eq_decide.mpr (by omega)
        · rw [iha]; exact decide_eq_decide.mpr (by omega)
        · rw [ihc, min_eq_right (by omega), min_eq_right (by omega)]
        · rw [ihu, min_eq_right (by omega), min_eq_right (by omega)]
        · rw [ihm, min_eq_right (by omega), min_eq_right (by omega)]
        · exact (decide_eq_false (by omega)).symm
        · rw [ihw]; exact decide_eq_decide.mpr (by omega)
      · by_cases hiii : t + 1 = m + 2
        · -- finish: pipeline empty, transfer completes
          have hact : (dmaRun aw base n s0 (t + 1)).active = true := by
            rw [iha]; exact decide_eq_true (by omega)
          have hr : (dmaRun aw base n s0 (t + 1)).read_req = false := by
            rw [ihr]; exact decide_eq_false (by omega)
          have hw : (dmaRun aw base n s0 (t + 1)).read_wait = false := by
            rw [ihw]; exact decide_eq_false (by omega)
          rw [hstep, dmaStep_finish aw base n false _ hact hnlt hr hw]
          refine ⟨?_, ?_, ?_, ?_, ?_, ?_, ?_⟩
          · exact (decide_eq_false (by omega)).symm
          · exact (decide_eq_false (by omega)).symm
          · rw [ihc, min_eq_right (by omega), min_eq_right (by omega)]
          · rw [ihu, min_eq_right (by omega), min_eq_right (by omega)]
          · rw [ihm, min_eq_right (by omega), min_eq_right (by omega)]
          · exact (decide_eq_false (by omega)).symm
          · rw [ihw]; exact decide_eq_decide.mpr (by omega)
        · -- idle: the transfer is over
          have hact : (dmaRun aw base n s0 (t + 1)).active = false := by
            rw [iha]; exact decide_eq_false (by omega)
          rw [hstep, dmaStep_idle aw base n _ hact]
          refine ⟨?_, ?_, ?_, ?_, ?_, ?_, ?_⟩
          · rw [ihb]; exact decide_eq_decide.mpr (by omega)
          · rw [iha]; exact decide_eq_decide.mpr (by omega)
          · rw [ihc, min_eq_right (by omega), min_eq_right (by omega)]
          · rw [ihu, min_eq_right (by omega), min_eq_right (by omega)]
          · rw [ihm, min_eq_right (by omega), min_eq_right (by omega)]
          · exact (decide_eq_false (by omega)).symm
          · rw [ihw]; exact decide_eq_decide.mpr (by omega)

/-- C4: for every accepted DMA transfer (a `start` read while not `active`,
from a quiescent request pipeline, with `num_samples = n ≥ 1`), `busy` is
true from the accept edge (`t+1 = 1`) until the data of the last in-flight
read has been captured — the final `read_req` (data-capture) cycle is
`t+1 = n+1` and `busy` holds through `t+1 = n+2` — and `busy` is true on
every cycle where a request is still outstanding (`read_req` or
`read_wait` set), so it is never deasserted with a read in flight. -/
theorem dma_busy_invariant (aw base : ℕ) (n : ℤ) (hn : 1 ≤ n) (s0 : DMAState)
    (h0a : s0.active = false) (h0r : s0.read_req = false)
    (h0w : s0.read_wait = false) (t : ℕ) :
    ((dmaRun aw base n s0 (t + 1)).read_req = true ∨
        (dmaRun aw base n s0 (t + 1)).read_wait = true →
      (dmaRun aw base n s0 (t + 1)).busy = true) ∧
    (dmaRun aw base n s0 (t + 1)).busy = decide (t + 1 ≤ n.toNat + 2) ∧
    (dmaRun aw base n s0 (t + 1)).read_req
        = decide (2 ≤ t + 1 ∧ t + 1 ≤ n.toNat + 1) := by
  have hm1 : 1 ≤ n.toNat := by omega
  have hmn : ¬((n.toNat : ℤ) < n) := by omega
  have hm2 : ∀ u : ℕ, u + 1 < n.toNat → ((u : ℤ) + 1 < n) := by
    intro u hu
    omega
  obtain ⟨hb, ha, hcn, hcu, hma, hw, hr⟩ :=
    dma_run_closed aw base n s0 h0a h0r h0w n.toNat hm1 hmn hm2 t
  refine ⟨?_, hb, hr⟩
  intro hout
  rw [hb]
  rcases hout with h1 | h1
  · rw [hr] at h1
    exact decide_eq_true (by have := of_decide_eq_true h1; omega)
  · rw [hw] at h1
    exact decide_eq_true (by have := of_decide_eq_true h1; omega)

/-- Witness for `dma_busy_invariant`: a 3-sample transfer from reset, after
4 edges — a read is still in flight (`read_req` high, the last capture
cycle) and `busy` is still asserted. -/
theorem dma_busy_invariant_witness :
    (dmaRun 12 5 3 dmaReset 4).busy = true ∧
    (dmaRun 12 5 3 dmaReset 4).read_req = true := by
  have h := dma_busy_invariant 12 5 3 (by norm_num) dmaReset rfl rfl rfl 3
  exact ⟨by rw [h.2.1]; decide, by rw [h.2.2]; decide⟩

/-- C10: an accepted `start` with `num_samples ≤ 1` (including 0 and
negative values) is not treated as empty: the accept edge issues exactly
one read at `base_addr` (`mem_addr` is driven to it and never moves),
`read_req` — and with it `fft_valid` — pulses on exactly one cycle
(`t+1 = 2`), on which the sample unpacked from the returned memory word is
emitted, and `busy` deasserts right after cycle 3. -/
theorem dma_short_transfer (aw base : ℕ) (n : ℤ) (hn : n ≤ 1) (s0 : DMAState)
    (h0a : s0.active = false) (h0r : s0.read_req = false)
    (h0w : s0.read_wait = false) (w : ℕ) (t : ℕ) :
    (dmaRun aw base n s0 (t + 1)).mem_addr = base % 2 ^ aw ∧
    (dmaRun aw base n s0 (t + 1)).read_req = decide (t + 1 = 2) ∧
    (dmaRun aw base n s0 (t + 1)).busy = decide (t + 1 ≤ 3) ∧
    dmaComb (dmaRun aw base n s0 (t + 1)).read_req w
      = (decide (t + 1 = 2), if t + 1 = 2 then dmaUnpack w else 0) := by
  have hm1 : (1 : ℕ) ≤ 1 := le_refl 1
  have hmn : ¬(((1 : ℕ) : ℤ) < n) := by omega
  have hm2 : ∀ u : ℕ, u + 1 < 1 → ((u : ℤ) + 1 < n) := by
    intro u hu
    omega
  obtain ⟨hb, ha, hcn, hcu, hma, hw, hr⟩ :=
    dma_run_closed aw base n s0 h0a h0r h0w 1 hm1 hmn hm2 t
  refine ⟨?_, ?_, ?_, ?_⟩
  · rw [hma, min_eq_right (by omega)]
    norm_num
  · rw [hr]
    exact decide_eq_decide.mpr (by omega)
  · rw [hb]
  · rw [hr]
    by_cases h2 : t + 1 = 2
    · rw [decide_eq_true (show 2 ≤ t + 1 ∧ t + 1 ≤ 1 + 1 by omega),
        decide_eq_true h2, if_pos h2]
      simp [dmaComb]
    · rw [decide_eq_false (show ¬(2 ≤ t + 1 ∧ t + 1 ≤ 1 + 1) by omega),
        decide_eq_false h2, if_neg h2]
      simp [dmaComb]

/-- Witness for `dma_short_transfer`: a zero-length transfer from reset
still drives `base_addr = 5` on the address bus and pulses `read_req`
after 2 edges. -/
theorem dma_short_transfer_witness :
    (dmaRun 12 5 0 dmaReset 2).mem_addr = 5 % 2 ^ 12 ∧
    (dmaRun 12 5 0 dmaReset 2).read_req = true := by
  have h := dma_short_transfer 12 5 0 (by norm_num) dmaReset rfl rfl rfl 0 1
  exact ⟨h.1, by rw [h.2.1]; decide⟩

/-! ## Claim C2: the two-phase butterfly contract -/

/-- Auxiliary: the non-reset, enabled branch of `Stage::process` is the
two-phase step. -/
theorem Stage.process_enabled {α : Type} [Add α] [Sub α] [Mul α] [Zero α]
    (Ns off : ℕ) (tw : ℕ → α) (sync : Bool) (input : α) (s : StageState α) :
    Stage.process Ns off tw false true sync input s
      = Stage.step Ns off tw sync input s := rfl

/-- Auxiliary: Phase 1 (`c < delay_len`) of the step in explicit form. -/
theorem Stage.step_phase1 {α : Type} [Add α] [Sub α] [Mul α] [Zero α]
    (Ns off : ℕ) (tw : ℕ → α) (sync : Bool) (input : α) (s : StageState α)
    (h : Stage.effCnt off sync s < Ns / 2) :
    Stage.step Ns off tw sync input s =
      { cnt := (Stage.effCnt off sync s + 1) % Ns
        buf_in := (Stage.effBuf sync s.buf_in).set (Stage.effCnt off sync s) input
        buf_out := Stage.effBuf sync s.buf_out
        out_reg := (Stage.effBuf sync s.buf_out).getD (Stage.effCnt off sync s) 0 } := by
  unfold Stage.step
  rw [if_pos h]

/-- Auxiliary: Phase 2 (`c ≥ delay_len`) of the step in explicit form. -/
theorem Stage.step_phase2 {α : Type} [Add α] [Sub α] [Mul α] [Zero α]
    (Ns off : ℕ) (tw : ℕ → α) (sync : Bool) (input : α) (s : StageState α)
    (h : ¬Stage.effCnt off sync s < Ns / 2) :
    Stage.step Ns off tw sync input s =
      { cnt := (Stage.effCnt off sync s + 1) % Ns
        buf_in := Stage.effBuf sync s.buf_in
        buf_out := (Stage.effBuf sync s.buf_out).set (Stage.effCnt off sync s - Ns / 2)
          (((Stage.effBuf sync s.buf_in).getD (Stage.effCnt off sync s - Ns / 2) 0 - input)
            * tw (Stage.effCnt off sync s - Ns / 2))
        out_reg := (Stage.effBuf sync s.buf_in).getD (Stage.effCnt off sync s - Ns / 2) 0
          + input } := by
  unfold Stage.step
  rw [if_neg h]

/-- Auxiliary: the code's cosine/sine twiddle equals the specification's
exponential form `exp(-j·2π·k/n)` (Euler's formula). -/
theorem get_twiddle_eq_exp (k n : ℕ) :
    get_twiddle k n = Complex.exp (-(2 * (Real.pi : ℂ) * k / n) * Complex.I) := by
  unfold get_twiddle
  rw [Complex.mk_eq_add_mul_I, Complex.ofReal_cos, Complex.ofReal_sin, ← Complex.exp_mul_I]
  congr 1
  push_cast
  ring

/-- C2: on every enabled non-reset edge of a Stage of size `N_stage` (with
`delay_len = N_stage / 2`), writing `c` for the post-sync counter and
`bi`/`bo` for the post-sync buffers (`Stage.effCnt` / `Stage.effBuf`):
if `c < delay_len`, the input is stored at `buf_in[c]` and the previous
block's stored difference `buf_out[c]` is emitted; if `c ≥ delay_len` with
`k = c - delay_len`, the stage emits `sum = buf_in[k] + input` in the same
cycle and stores `diff = (buf_in[k] - input) · W` into `buf_out[k]`, where
`W = get_twiddle k N_stage = exp(-j·2π·k/N_stage)`. -/
theorem stage_butterfly_phases (Ns off : ℕ) (sync : Bool) (input : ℂ)
    (s s2 : StageState ℂ)
    (hs2 : s2 = Stage.process Ns off (fun k => get_twiddle k Ns) false true sync input s) :
    (Stage.effCnt off sync s < Ns / 2 →
      s2.buf_in = (Stage.effBuf sync s.buf_in).set (Stage.effCnt off sync s) input ∧
      s2.out_reg = (Stage.effBuf sync s.buf_out).getD (Stage.effCnt off sync s) 0 ∧
      s2.buf_out = Stage.effBuf sync s.buf_out) ∧
    (Ns / 2 ≤ Stage.effCnt off sync s →
      s2.out_reg
          = (Stage.effBuf sync s.buf_in).getD (Stage.effCnt off sync s - Ns / 2) 0 + input ∧
      s2.buf_out = (Stage.effBuf sync s.buf_out).set (Stage.effCnt off sync s - Ns / 2)
        (((Stage.effBuf sync s.buf_in).getD (Stage.effCnt off sync s - Ns / 2) 0 - input)
          * get_twiddle (Stage.effCnt off sync s - Ns / 2) Ns) ∧
      s2.buf_in = Stage.effBuf sync s.buf_in) ∧
    get_twiddle (Stage.effCnt off sync s - Ns / 2) Ns
      = Complex.exp
          (-(2 * (Real.pi : ℂ) * ((Stage.effCnt off sync s - Ns / 2 : ℕ) : ℂ) / Ns)
            * Complex.I) := by
  subst hs2
  rw [Stage.process_enabled]
  refine ⟨?_, ?_, get_twiddle_eq_exp _ _⟩
  · intro h
    rw [Stage.step_phase1 Ns off _ sync input s h]
    exact ⟨rfl, rfl, rfl⟩
  · intro h
    rw [Stage.step_phase2 Ns off _ sync input s (by omega)]
    exact ⟨rfl, rfl, rfl⟩

/-- Witness for `stage_butterfly_phases`: size-4 stage in Phase 2 at
`k = 0`: the paired buffered sample `1` and the input `2 + i` leave as the
sum `(1) + (2 + i)` on the same edge. -/
theorem stage_butterfly_phases_witness :
    (Stage.process 4 0 (fun k => get_twiddle k 4) false true false ((⟨2, 1⟩ : ℂ))
        ⟨2, [⟨1, 0⟩, ⟨3, 0⟩], [⟨5, 0⟩, ⟨6, 0⟩], 0⟩).out_reg
      = (⟨1, 0⟩ : ℂ) + (⟨2, 1⟩ : ℂ) :=
  ((stage_butterfly_phases 4 0 false ⟨2, 1⟩ ⟨2, [⟨1, 0⟩, ⟨3, 0⟩], [⟨5, 0⟩, ⟨6, 0⟩], 0⟩
      _ rfl).2.1 (by norm_num [Stage.effCnt])).1

end FFTSpec
